import Mathlib

/-!
# Verification of the shadeset capture/reconciliation core

Shallow embedding of the material-assignment capture and reconciliation
algorithms of the `shadeset` repository (`shadeset/materials.py`,
`shadeset/utils.py`).  Paths are modelled as Lean `String`s using `'|'` as
the dag-path delimiter, exactly as in the source; the Python string
primitives used by the source (`lstrip`, `rstrip`, `split`, `partition`,
`rpartition`, `startswith`, `count`, `replace`) are reproduced as small
executable functions over `List Char`.

External host (Maya) queries are not code of this repository; where a
claim depends on them they are modelled explicitly, with the model stated
in the doc comment of the corresponding definition.
-/

namespace Shadeset

/-- Python `s.lstrip('|')`: drop the leading run of `'|'` characters. -/
def lstripPipe (s : String) : String :=
  String.mk (s.data.dropWhile (· == '|'))

/-- Python `s.rstrip('|')`: drop the trailing run of `'|'` characters. -/
def rstripPipe (s : String) : String :=
  String.mk ((s.data.reverse.dropWhile (· == '|')).reverse)

/-- Python `c in s` for a single character. -/
def strContains (s : String) (c : Char) : Bool :=
  s.data.contains c

/-- Python `pre + rest == s ∧ s.startswith(pre)` test: string prefix. -/
def pyStartswith (s pre : String) : Bool :=
  pre.data.isPrefixOf s.data

/-- Python `s.count(c)` for a single character `c`. -/
def pyCountChar (c : Char) (s : String) : Nat :=
  (s.data.filter (· == c)).length

/-- Helper for `pySplit`: split a character list on a delimiter,
keeping empty fields, as Python `str.split(sep)` does. -/
def splitCharGo (c : Char) (cur : List Char) : List Char → List (List Char)
  | [] => [cur.reverse]
  | x :: xs =>
    if x == c then cur.reverse :: splitCharGo c [] xs
    else splitCharGo c (x :: cur) xs

/-- Python `s.split(c)` for a one-character separator (keeps empty fields). -/
def pySplit (c : Char) (s : String) : List String :=
  (splitCharGo c [] s.data).map String.mk

/-- The characters after the first occurrence of `c`, if any. -/
def afterFirstAux (c : Char) : List Char → Option (List Char)
  | [] => none
  | x :: xs => if x == c then some xs else afterFirstAux c xs

/-- Python `s.partition(c)[-1]`: the part after the first occurrence of
`c`, or the empty string when `c` does not occur. -/
def pyPartitionAfter (c : Char) (s : String) : String :=
  match afterFirstAux c s.data with
  | some r => String.mk r
  | none => ""

/-- Python `s.rpartition(c)[-1]`: the part after the last occurrence of
`c`, or the whole string when `c` does not occur. -/
def afterLast (c : Char) (s : String) : String :=
  String.mk ((s.data.reverse.takeWhile (· != c)).reverse)

/-- Remove the prefix `pre` from `s` (models Python `s.replace(pre, '', 1)`
in the only situation the source uses it: directly guarded by
`s.startswith(pre)`, so the first occurrence is the prefix itself). -/
def dropPrefixStr (s pre : String) : String :=
  String.mk (s.data.drop pre.data.length)

/-- The segments of an absolute dag path, ignoring the leading `'|'`
markers (e.g. `"|geo|a"` gives `["geo", "a"]`). -/
def segsAbs (p : String) : List String :=
  pySplit '|' (lstripPipe p)

/-- Python truthiness of an optional string argument (`if namespace:`):
`None` and the empty string are falsy. -/
def optTruthy (o : Option String) : Option String :=
  match o with
  | some s => if s == "" then none else some s
  | none => none

/-!
## PathCodec: `get_relative_paths` (materials.py lines 108-121)

The Python function reads:

```
if '|' in root:
    anchor = root.rstrip('|').rpartition('|')[-1]
results = []
for path in paths:
    if path.startswith(root):
        path = path.replace(root, '', 1).lstrip('|')
        results.append(anchor + '|' + path)
    else:
        results.append(path)
return results
```

When `'|'` is not in `root`, `anchor` is unbound and the first path that
starts with `root` raises `NameError`; this error case is modelled with
`none`.  `path.replace(root, '', 1)` is evaluated under the
`path.startswith(root)` guard, where the first occurrence of `root` is the
prefix, so it is modelled by dropping the prefix.
-/

def get_relative_paths (paths : List String) (root : String) : Option (List String) :=
  if strContains root '|' then
    let anchor := afterLast '|' (rstripPipe root)
    some (paths.map (fun p =>
      if pyStartswith p root then
        anchor ++ "|" ++ lstripPipe (dropPrefixStr p root)
      else p))
  else if paths.any (fun p => pyStartswith p root) then none
  else some paths

/-!
## PathResolver: `find_matching_paths` (materials.py lines 237-270)

The live scene is modelled as the list of absolute long dag paths of all
scene nodes (the universe that `cmds.ls` draws matches from).

Modelled from the spec: the external live-tree query `cmds.ls(pattern,
long=True, recursive=True)` for the patterns of the form `'*|' + tail`
built by this function.  Per §4.4 of the spec such a pattern matches the
live paths whose trailing segment sequence equals `tail`'s segment
sequence with at least one further segment above it (the leading `'*'`
wildcard anchor); this is the unanchored trailing-path matching of Maya's
`ls`.
-/

def lsStarMatches (tail p : String) : Bool :=
  let ts := pySplit '|' tail
  let ps := segsAbs p
  ts.isSuffixOf ps && decide (ts.length < ps.length)

def find_matching_paths (scene : List String) (path : String) (root : String)
    (namespace_ : Option String) (strict : Bool) : List String :=
  let path := lstripPipe path
  let tail := if strict then path else pyPartitionAfter '|' path
  scene.filter (fun m =>
    lsStarMatches tail m
    && (match optTruthy namespace_ with
        | some n => pyStartswith (afterLast '|' m) n
        | none => true)
    && pyStartswith m (rstripPipe root ++ "|"))

/-!
## PathCodec: `remove_namespaces` (materials.py lines 124-140)

`re.sub(r'[A-Za-z0-9_]+\:', '', obj)` removes every (non-overlapping)
occurrence of a run of word characters followed by a colon.  Because a
colon is not a word character, the regex engine's greedy maximal run is
the only candidate at each position, so the substitution is reproduced by
the linear scan below (with an explicit fuel argument for termination).
`obj, comp = name.split('.')` raises `ValueError` when the name contains
more than one dot; that error case is modelled with `none`.
-/

def isWordChar (c : Char) : Bool :=
  c.isAlphanum || c == '_'

def subNsAux : Nat → List Char → List Char
  | 0, cs => cs
  | _ + 1, [] => []
  | f + 1, c :: cs =>
    if isWordChar c then
      match (c :: cs).dropWhile isWordChar with
      | ':' :: tail => subNsAux f tail
      | rest => (c :: cs).takeWhile isWordChar ++ subNsAux f rest
    else c :: subNsAux f cs

def pyReSubNs (s : String) : String :=
  String.mk (subNsAux s.data.length s.data)

def remove_namespaces (names : List String) : Option (List String) :=
  names.mapM (fun name =>
    if strContains name '.' then
      match pySplit '.' name with
      | [obj, comp] =>
        let obj := pyReSubNs obj
        some (if comp == "" then obj else obj ++ "." ++ comp)
      | _ => none
    else some (pyReSubNs name))

/-!
## MemberFormatter: `format_members` (materials.py lines 143-162)

The Python dict `components_map` preserves insertion order, so it is
modelled as an association list to which new keys are appended at the
end.  `dictAppend` models `d.setdefault(k, []).append(v)` and is shared
with the reconciliation phase (`defaultdict(list)` has the same
behaviour); `fmEnsureKey` models a bare `d.setdefault(k, [])`.
-/

def dictAppend {β : Type} : List (String × List β) → String → β → List (String × List β)
  | [], k, v => [(k, [v])]
  | e :: es, k, v =>
    if e.1 == k then (e.1, e.2 ++ [v]) :: es else e :: dictAppend es k v

def dictLookup {β : Type} : List (String × List β) → String → List β
  | [], _ => []
  | e :: es, k => if e.1 == k then e.2 else dictLookup es k

def fmEnsureKey : List (String × List String) → String → List (String × List String)
  | [], k => [(k, [])]
  | e :: es, k => if e.1 == k then e :: es else e :: fmEnsureKey es k

def fmGo : List (String × List String) → List String →
    Option (List (String × List String))
  | acc, [] => some acc
  | acc, m :: ms =>
    if strContains m '.' then
      match pySplit '.' m with
      | [obj, comp] => fmGo (dictAppend acc obj comp) ms
      | _ => none
    else fmGo (fmEnsureKey acc m) ms

/-- A shadingEngine set member: a dag path plus a list of component
selectors (empty = whole-entity assignment). -/
structure Member where
  path : String
  components : List String
deriving DecidableEq

def format_members (members : List String) : Option (List Member) :=
  (fmGo [] members).map (fun acc => acc.map (fun e => ⟨e.1, e.2⟩))

/-!
## AssignmentCapture member sanitization
(`collect_material_assignments`, materials.py lines 221-229)

The external collaborator calls (`get_hierarchy`, `get_shading_engines`,
`get_members`) enumerate the live tree; their results enter the pipeline
as the `members` and `hierarchy` arguments.  The per-engine member
processing of lines 224-228 is the composition below.
-/

def filter_members_in_hierarchy (members hierarchy : List String) : List String :=
  members.filter (fun m => hierarchy.contains ((pySplit '.' m).headD m))

def sanitize_members (members hierarchy : List String) (root : String) :
    Option (List Member) :=
  let ms := filter_members_in_hierarchy members hierarchy
  match get_relative_paths ms root with
  | none => none
  | some ms2 =>
    match remove_namespaces ms2 with
    | none => none
    | some ms3 => format_members ms3

/-!
## `filter_bad_face_assignments` (utils.py lines 270-293)

The regex `\.f\[0:(\d+)\]$` is matched against the end of the token;
`node.replace(match.group(0), '')` removes every occurrence of the
matched text (`pyRemoveAll`), and `cmds.polyEvaluate(short, face=True)`
is the external face-count oracle, passed in as the `faces` argument.
-/

def digitsToNat (ds : List Char) : Nat :=
  ds.foldl (fun a c => a * 10 + (c.toNat - '0'.toNat)) 0

/-- Parse the suffix `.f[0:<digits>]` of a token; returns the matched
character sequence and the numeric value of the digits. -/
def parseFullFaceRange (s : String) : Option (List Char × Nat) :=
  match s.data.reverse with
  | [] => none
  | c :: rest =>
    if c = ']' then
      let rds := rest.takeWhile Char.isDigit
      let rest2 := rest.dropWhile Char.isDigit
      if rds.isEmpty then none
      else if [':', '0', '[', 'f', '.'].isPrefixOf rest2 then
        some (('.' :: 'f' :: '[' :: '0' :: ':' :: rds.reverse) ++ [']'], digitsToNat rds.reverse)
      else none
    else none

def removeAllAux (pat : List Char) : Nat → List Char → List Char
  | 0, cs => cs
  | _ + 1, [] => []
  | f + 1, c :: cs =>
    if pat.isPrefixOf (c :: cs) then removeAllAux pat f ((c :: cs).drop pat.length)
    else c :: removeAllAux pat f cs

def pyRemoveAll (s : String) (pat : List Char) : String :=
  String.mk (removeAllAux pat s.data.length s.data)

def filter_bad_face_assignments (faces : String → Nat) (nodes : List String) :
    List String :=
  nodes.map (fun node =>
    match parseFullFaceRange node with
    | some (matched, endN) =>
      let short := pyRemoveAll node matched
      if endN + 1 == faces short then short else node
    | none => node)

/-!
## GroupResolver: `find_shading_engine` (materials.py lines 279-318)

The live scene's shading groups are modelled as records carrying the
ls-listed node name and the optional `meta_uuid` attribute value.

Modelled from the spec: the external name lookup `cmds.ls(name,
recursive=True)` matches a group either by its exact listed name or, with
`recursive=True`, by its name with the namespace qualifier stripped; the
attribute enumeration `cmds.ls('*.meta_uuid', objectsOnly=True)` lists
every object carrying a `meta_uuid` attribute, restricted to names
beginning with the namespace when the lookup is namespace-qualified.
-/

structure SceneGroup where
  name : String
  meta_uuid : Option String
deriving DecidableEq

def lsNameMatches (groups : List SceneGroup) (lookup : String) : List String :=
  (groups.filter (fun g => g.name == lookup || afterLast ':' g.name == lookup)).map
    (fun g => g.name)

def uuidMatchesOf (groups : List SceneGroup) (u : String) (ns : Option String) :
    List String :=
  ((groups.filter (fun g => g.meta_uuid.isSome &&
      (match ns with | some n => pyStartswith g.name n | none => true))).filter
    (fun g => g.meta_uuid == some u)).map (fun g => g.name)

/-- Name pattern of lines 293-298: `namespace + shading_engine` when a
(truthy) namespace is given, the bare name otherwise. -/
def nameLookup (shadingEngine : String) (ns : Option String) : String :=
  match ns with | some n => n ++ shadingEngine | none => shadingEngine

def find_shading_engine (groups : List SceneGroup) (shadingEngine : String)
    (uuid : Option String) (namespace_ : Option String) : Option String :=
  let ns := optTruthy namespace_
  let name_matches := lsNameMatches groups (nameLookup shadingEngine ns)
  if name_matches.length == 1 then name_matches.head?
  else
    let uuid_matches := match optTruthy uuid with
      | some u => uuidMatchesOf groups u ns
      | none => []
    if uuid_matches.length == 1 then uuid_matches.head?
    else if !name_matches.isEmpty then name_matches.head?
    else if !uuid_matches.isEmpty then uuid_matches.head?
    else none

/-!
## AssignmentReconciler: `apply_material_assignments`
(materials.py lines 379-474)

The assignments dict is modelled as an association list in dict iteration
(= insertion) order; `matched_member_assignments` and
`best_shading_assignments` are `defaultdict(list)` values, modelled with
`dictAppend` (append to the entry, creating it at the end on first use).
The guard `if not shading_engine: continue` of line 414 tests the dict
key `shading_engine` (not `matching_shading_engine`) and is translated
exactly as written.
-/

structure GroupData where
  meta_uuid : String
  members : List Member
deriving DecidableEq

structure Candidate where
  member : Member
  shadingEngine : String
deriving DecidableEq

/-- Tie-break key of line 446: `x['member']['path'].count('|')`. -/
def depthKey (c : Candidate) : Nat := pyCountChar '|' c.member.path

/-- Python `max(xs, key=key)`: the first element attaining the maximal
key (later elements replace the running best only on a strictly greater
key). -/
def pyMaxAux {α : Type} (key : α → Nat) (best : α) : List α → α
  | [] => best
  | x :: xs => pyMaxAux key (if key x > key best then x else best) xs

def pythonMax {α : Type} (key : α → Nat) : List α → Option α
  | [] => none
  | x :: xs => some (pyMaxAux key x xs)

/-- Inner loop of lines 421-436: resolve one member's live paths and
record a candidate claim on every resolved path. -/
def memberStep (scene : List String) (root : String) (member_namespace : Option String)
    (strict : Bool) (se : String) (idx : List (String × List Candidate))
    (member : Member) : List (String × List Candidate) :=
  let found := find_matching_paths scene member.path root member_namespace strict
  found.foldl (fun idx m => dictAppend idx m ⟨member, se⟩) idx

/-- Body of the `for shading_engine, data in assignments.items()` loop of
lines 407-436, including the (ineffective) `if not shading_engine:
continue` guard of line 414, which tests the dict key rather than the
`matching_shading_engine` lookup result. -/
def buildIndexStep (engines : List SceneGroup) (scene : List String) (root : String)
    (member_namespace material_namespace : Option String) (strict : Bool)
    (idx : List (String × List Candidate)) (entry : String × GroupData) :
    List (String × List Candidate) :=
  let se := entry.1
  let data := entry.2
  let _matching := find_shading_engine engines (afterLast ':' se)
    (some data.meta_uuid) material_namespace
  if se == "" then idx
  else data.members.foldl (memberStep scene root member_namespace strict se) idx

def buildIndex (engines : List SceneGroup) (scene : List String)
    (assignments : List (String × GroupData)) (root : String)
    (member_namespace material_namespace : Option String) (strict : Bool) :
    List (String × List Candidate) :=
  assignments.foldl
    (buildIndexStep engines scene root member_namespace material_namespace strict) []

/-- Lines 441-458: for one contested live path, select the best
assignment by maximal source-path depth and keep every assignment whose
source member path equals the best one's. -/
def keptCandidates (cands : List Candidate) : List Candidate :=
  match pythonMax depthKey cands with
  | none => []
  | some best => cands.filter (fun c => c.member.path == best.member.path)

/-- Body of the `for path, assignments in matched_member_assignments`
loop of lines 441-458: keep the best-path candidates of one live path
and append them to `best_shading_assignments`. -/
def bestStep (bsa : List (String × List Member)) (e : String × List Candidate) :
    List (String × List Member) :=
  (keptCandidates e.2).foldl (fun bsa c =>
    dictAppend bsa c.shadingEngine ⟨e.1, c.member.components⟩) bsa

def bestAssignments (idx : List (String × List Candidate)) :
    List (String × List Member) :=
  idx.foldl bestStep []

def apply_material_assignments (engines : List SceneGroup) (scene : List String)
    (assignments : List (String × GroupData)) (root : String)
    (member_namespace material_namespace : Option String) (strict : Bool) :
    List (String × List Member) :=
  bestAssignments
    (buildIndex engines scene assignments root member_namespace material_namespace strict)

/-- Lines 463-474: expansion of a group's member list into the concrete
assignee tokens passed to `assign_shading_engine`. -/
def assigneesOf (members : List Member) : List String :=
  members.foldl (fun acc m =>
    if !m.components.isEmpty then
      acc ++ m.components.map (fun comp => m.path ++ "." ++ comp)
    else acc ++ [m.path]) []

/-- The sequence of `assign_shading_engine(shading_engine, assignees)`
calls made by `apply_material_assignments`. -/
def applyCalls (engines : List SceneGroup) (scene : List String)
    (assignments : List (String × GroupData)) (root : String)
    (member_namespace material_namespace : Option String) (strict : Bool) :
    List (String × List String) :=
  (apply_material_assignments engines scene assignments root
      member_namespace material_namespace strict).map
    (fun e => (e.1, assigneesOf e.2))

/-!
## Specification-side helper definitions

The following definitions are not part of the embedded program; they are
the vocabulary in which the claims are stated and checked.
-/

/-- Candidate claims contributed to `best_shading_assignments` by one
entry of the contested-path index. -/
def entryPairs (e : String × List Candidate) : List (String × Member) :=
  (keptCandidates e.2).map (fun c => (c.shadingEngine, ⟨e.1, c.member.components⟩))

/-- Number of groups of an output map whose member set mentions the live
path `p`. -/
def groupsClaiming (out : List (String × List Member)) (p : String) : Nat :=
  (out.filter (fun e => e.2.any (fun m => m.path == p))).length

/-- Base entity of a raw member token (the part before the first dot). -/
def entityOf (m : String) : String :=
  ((pySplit '.' m).headD m)

/-- Component selectors contributed for entity `k` by the raw tokens
`ms`, in token order. -/
def compsFor (ms : List String) (k : String) : List String :=
  ms.filterMap (fun m =>
    if strContains m '.' then
      match pySplit '.' m with
      | [obj, c] => if obj == k then some c else none
      | _ => none
    else none)

/-- Distinct elements of a list in first-seen order, excluding the ones
already in `seen`. -/
def firstSeenFrom (seen : List String) : List String → List String
  | [] => []
  | x :: xs =>
    if x ∈ seen then firstSeenFrom seen xs
    else x :: firstSeenFrom (seen ++ [x]) xs

/-!
## Lemmas about the ordered-dict operations
-/

theorem dictLookup_dictAppend {β : Type} (acc : List (String × List β)) (k k' : String)
    (v : β) :
    dictLookup (dictAppend acc k v) k' =
      if k' = k then dictLookup acc k' ++ [v] else dictLookup acc k' := by
  induction acc with
  | nil =>
    by_cases h : k' = k
    · simp [dictAppend, dictLookup, h]
    · simp [dictAppend, dictLookup, h, Ne.symm h]
  | cons e es ih =>
    by_cases hek : e.1 = k
    · by_cases hk' : k' = k
      · simp [dictAppend, dictLookup, hek, hk']
      · have hek' : e.1 ≠ k' := by rw [hek]; exact Ne.symm hk'
        simp [dictAppend, dictLookup, hek, hek', hk', Ne.symm hk']
    · by_cases hke' : e.1 = k'
      · have hne : k' ≠ k := fun hh => hek (by rw [hke', hh])
        simp [dictAppend, dictLookup, hek, hke', hne]
      · simp [dictAppend, dictLookup, hek, hke', ih]

theorem fst_mem_dictAppend {β : Type} (acc : List (String × List β)) (k : String)
    (v : β) :
    ∀ e ∈ dictAppend acc k v, e.1 = k ∨ e.1 ∈ acc.map Prod.fst := by
  induction acc with
  | nil =>
    intro e he
    simp [dictAppend] at he
    left; rw [he]
  | cons e₀ es ih =>
    intro e he
    by_cases h : e₀.1 = k
    · simp [dictAppend, h] at he
      rcases he with he | he
      · left; rw [he]
      · right; exact List.mem_map.mpr ⟨e, by simp [he], rfl⟩
    · simp [dictAppend, h] at he
      rcases he with he | he
      · right; exact List.mem_map.mpr ⟨e, by simp [he], rfl⟩
      · rcases ih e he with h' | h'
        · exact Or.inl h'
        · right
          rcases List.mem_map.mp h' with ⟨a, ha, hae⟩
          exact List.mem_map.mpr ⟨a, by simp [ha], hae⟩

theorem val_mem_dictAppend {β : Type} (P : β → Prop) (acc : List (String × List β))
    (k : String) (v : β) (hacc : ∀ e ∈ acc, ∀ c ∈ e.2, P c) (hv : P v) :
    ∀ e ∈ dictAppend acc k v, ∀ c ∈ e.2, P c := by
  induction acc with
  | nil =>
    intro e he c hc
    simp [dictAppend] at he
    subst he
    simp at hc
    exact hc ▸ hv
  | cons e₀ es ih =>
    by_cases h : e₀.1 = k
    · intro e he c hc
      simp [dictAppend, h] at he
      rcases he with he | he
      · subst he
        simp at hc
        rcases hc with hc | hc
        · exact hacc e₀ (by simp) c hc
        · exact hc ▸ hv
      · exact hacc e (by simp [he]) c hc
    · intro e he c hc
      simp [dictAppend, h] at he
      rcases he with he | he
      · exact hacc e₀ (by simp) c (he ▸ hc)
      · exact ih (fun e' he' => hacc e' (by simp [he'])) e he c hc

theorem dictLookup_of_mem_nodup {β : Type} (acc : List (String × List β))
    (pr : String × List β) (hmem : pr ∈ acc) (hnd : (acc.map Prod.fst).Nodup) :
    dictLookup acc pr.1 = pr.2 := by
  induction acc with
  | nil => simp at hmem
  | cons e es ih =>
    simp at hmem
    rcases hmem with hmem | hmem
    · subst hmem; simp [dictLookup]
    · rw [List.map_cons, List.nodup_cons] at hnd
      have hne : e.1 ≠ pr.1 := by
        intro h
        exact hnd.1 (by rw [h]; exact List.mem_map.mpr ⟨pr, hmem, rfl⟩)
      simp [dictLookup, hne]
      exact ih hmem hnd.2

/-!
## Lemmas about Python `max` (first maximal element wins)
-/

theorem pyMaxAux_ge {α : Type} (key : α → Nat) (l : List α) (b : α) :
    ∀ c ∈ b :: l, key c ≤ key (pyMaxAux key b l) := by
  induction l generalizing b with
  | nil => intro c hc; simp at hc; simp [pyMaxAux, hc]
  | cons x xs ih =>
    intro c hc
    simp at hc
    by_cases h : key x > key b
    · simp [pyMaxAux, h]
      rcases hc with hc | hc | hc
      · exact le_trans (le_of_lt (hc ▸ h)) (ih x x (by simp))
      · exact ih x c (by simp [hc])
      · exact ih x c (by simp [hc])
    · simp [pyMaxAux, h]
      rcases hc with hc | hc | hc
      · exact ih b c (by simp [hc])
      · exact le_trans (hc ▸ Nat.le_of_not_lt h) (ih b b (by simp))
      · exact ih b c (by simp [hc])

theorem pyMaxAux_split {α : Type} (key : α → Nat) (l : List α) (b : α) :
    ∃ pre post, b :: l = pre ++ pyMaxAux key b l :: post ∧
      (∀ p ∈ pre, key p < key (pyMaxAux key b l)) ∧
      (∀ q ∈ post, key q ≤ key (pyMaxAux key b l)) := by
  induction l generalizing b with
  | nil => exact ⟨[], [], rfl, by simp, by simp⟩
  | cons x xs ih =>
    by_cases h : key x > key b
    · have hw : pyMaxAux key b (x :: xs) = pyMaxAux key x xs := by simp [pyMaxAux, h]
      obtain ⟨pre, post, heq, hpre, hpost⟩ := ih x
      have hxw : key x ≤ key (pyMaxAux key x xs) := pyMaxAux_ge key xs x x (by simp)
      refine ⟨b :: pre, post, ?_, ?_, ?_⟩
      · rw [hw, List.cons_append, ← heq]
      · intro p hp
        rw [hw]
        rcases List.mem_cons.mp hp with hp | hp
        · subst hp; exact lt_of_lt_of_le h hxw
        · exact hpre p hp
      · intro q hq; rw [hw]; exact hpost q hq
    · have hw : pyMaxAux key b (x :: xs) = pyMaxAux key b xs := by simp [pyMaxAux, h]
      obtain ⟨pre, post, heq, hpre, hpost⟩ := ih b
      cases pre with
      | nil =>
        rw [List.nil_append] at heq
        have hwb : pyMaxAux key b xs = b := (List.cons.injEq _ _ _ _ ▸ heq).1.symm
        have hxs : xs = post := (List.cons.injEq _ _ _ _ ▸ heq).2
        refine ⟨[], x :: post, ?_, by simp, ?_⟩
        · rw [hw, hwb, List.nil_append, hxs]
        · intro q hq
          rw [hw, hwb]
          rcases List.mem_cons.mp hq with hq | hq
          · subst hq; exact Nat.le_of_not_lt h
          · have hq' := hpost q hq; rwa [hwb] at hq'
      | cons p₀ pre' =>
        rw [List.cons_append] at heq
        have hp₀ : p₀ = b := (List.cons.injEq _ _ _ _ ▸ heq).1.symm
        have hxs : xs = pre' ++ pyMaxAux key b xs :: post :=
          (List.cons.injEq _ _ _ _ ▸ heq).2
        have hbw : key b < key (pyMaxAux key b xs) := by
          have hx := hpre p₀ (by simp)
          rwa [hp₀] at hx
        refine ⟨b :: x :: pre', post, ?_, ?_, ?_⟩
        · rw [hw, List.cons_append, List.cons_append, ← hxs]
        · intro p hp
          rw [hw]
          rcases List.mem_cons.mp hp with hp | hp
          · subst hp; exact hbw
          rcases List.mem_cons.mp hp with hp | hp
          · subst hp; exact lt_of_le_of_lt (Nat.le_of_not_lt h) hbw
          · exact hpre p (by simp [hp])
        · intro q hq; rw [hw]; exact hpost q hq

/-!
## Lemmas about the reconciliation phase
-/

theorem keptCandidates_subset (cs : List Candidate) : ∀ c ∈ keptCandidates cs, c ∈ cs := by
  intro c hc
  unfold keptCandidates at hc
  cases hmax : pythonMax depthKey cs with
  | none => rw [hmax] at hc; simp at hc
  | some b => rw [hmax] at hc; exact (List.mem_filter.mp hc).1

theorem foldPairs_lookup (ps : List (String × Member))
    (bsa : List (String × List Member)) (g : String) :
    dictLookup (ps.foldl (fun b pr => dictAppend b pr.1 pr.2) bsa) g =
      dictLookup bsa g ++ ps.filterMap (fun pr => if pr.1 = g then some pr.2 else none) := by
  induction ps generalizing bsa with
  | nil => simp
  | cons pr ps ih =>
    rw [List.foldl_cons, ih, dictLookup_dictAppend]
    by_cases h : pr.1 = g
    · simp [h, List.filterMap_cons]
    · simp [h, List.filterMap_cons, Ne.symm h]

theorem bestAssignments_fold_lookup (idx : List (String × List Candidate))
    (bsa : List (String × List Member)) (g : String) :
    dictLookup (idx.foldl bestStep bsa) g =
      dictLookup bsa g ++
        ((idx.map entryPairs).flatten).filterMap
          (fun pr => if pr.1 = g then some pr.2 else none) := by
  induction idx generalizing bsa with
  | nil => simp
  | cons e idx ih =>
    rw [List.foldl_cons, ih]
    have hinner : bestStep bsa e = (entryPairs e).foldl (fun b pr => dictAppend b pr.1 pr.2) bsa := by
      rw [bestStep, entryPairs, List.foldl_map]
    rw [hinner, foldPairs_lookup]
    simp [List.filterMap_append, List.append_assoc]

theorem bestAssignments_lookup (idx : List (String × List Candidate)) (g : String) :
    dictLookup (bestAssignments idx) g =
      ((idx.map entryPairs).flatten).filterMap
        (fun pr => if pr.1 = g then some pr.2 else none) := by
  have h := bestAssignments_fold_lookup idx [] g
  simpa [bestAssignments, dictLookup] using h

theorem val_mem_foldPaths (P : Candidate → Prop) (found : List String)
    (idx : List (String × List Candidate)) (c : Candidate)
    (hidx : ∀ e ∈ idx, ∀ c' ∈ e.2, P c') (hc : P c) :
    ∀ e ∈ found.foldl (fun idx m => dictAppend idx m c) idx, ∀ c' ∈ e.2, P c' := by
  induction found generalizing idx with
  | nil => exact hidx
  | cons p ps ih =>
    rw [List.foldl_cons]
    exact ih _ (val_mem_dictAppend P idx p c hidx hc)

theorem val_mem_memberStep (P : Candidate → Prop) (scene : List String) (root : String)
    (mns : Option String) (strict : Bool) (se : String)
    (idx : List (String × List Candidate)) (member : Member)
    (hidx : ∀ e ∈ idx, ∀ c' ∈ e.2, P c') (hse : P ⟨member, se⟩) :
    ∀ e ∈ memberStep scene root mns strict se idx member, ∀ c' ∈ e.2, P c' := by
  unfold memberStep
  exact val_mem_foldPaths P _ idx _ hidx hse

theorem val_mem_buildIndex_fold (engines : List SceneGroup) (scene : List String)
    (root : String) (mns matns : Option String) (strict : Bool) (P : Candidate → Prop) :
    ∀ (asg : List (String × GroupData)) (idx : List (String × List Candidate)),
      (∀ e ∈ idx, ∀ c ∈ e.2, P c) →
      (∀ a ∈ asg, ∀ m : Member, P ⟨m, a.1⟩) →
      ∀ e ∈ asg.foldl (buildIndexStep engines scene root mns matns strict) idx,
        ∀ c ∈ e.2, P c := by
  intro asg
  induction asg with
  | nil => intro idx hidx _; exact hidx
  | cons a asg ih =>
    intro idx hidx hasg
    rw [List.foldl_cons]
    refine ih _ ?_ (fun a' ha' m => hasg a' (by simp [ha']) m)
    by_cases ha : a.1 = ""
    · simpa [buildIndexStep, ha] using hidx
    · have hms : ∀ (mems : List Member) (idx' : List (String × List Candidate)),
          (∀ e ∈ idx', ∀ c ∈ e.2, P c) →
          ∀ e ∈ mems.foldl (memberStep scene root mns strict a.1) idx', ∀ c ∈ e.2, P c := by
        intro mems
        induction mems with
        | nil => intro idx' hidx' ; exact hidx'
        | cons m mems ihm =>
          intro idx' hidx'
          rw [List.foldl_cons]
          exact ihm _ (val_mem_memberStep P scene root mns strict a.1 idx' m hidx'
            (hasg a (by simp) m))
      simpa [buildIndexStep, ha] using hms a.2.members idx hidx

theorem val_mem_buildIndex (engines : List SceneGroup) (scene : List String)
    (assignments : List (String × GroupData)) (root : String)
    (mns matns : Option String) (strict : Bool) :
    ∀ e ∈ buildIndex engines scene assignments root mns matns strict,
      ∀ c ∈ e.2, c.shadingEngine ∈ assignments.map Prod.fst := by
  refine val_mem_buildIndex_fold engines scene root mns matns strict _ assignments []
    (by simp) ?_
  intro a ha m
  exact List.mem_map.mpr ⟨a, ha, rfl⟩

theorem fst_mem_foldCands (Q : String → Prop) (l : List Candidate) (p : String) :
    ∀ bsa : List (String × List Member),
      (∀ en ∈ bsa, Q en.1) → (∀ c ∈ l, Q c.shadingEngine) →
      ∀ en ∈ l.foldl (fun bsa c =>
          dictAppend bsa c.shadingEngine ⟨p, c.member.components⟩) bsa, Q en.1 := by
  induction l with
  | nil => intro bsa hbsa _; exact hbsa
  | cons c l ih =>
    intro bsa hbsa hl
    rw [List.foldl_cons]
    refine ih _ ?_ (fun c' hc' => hl c' (by simp [hc']))
    intro en hen
    rcases fst_mem_dictAppend bsa c.shadingEngine _ en hen with h | h
    · rw [h]; exact hl c (by simp)
    · rcases List.mem_map.mp h with ⟨en', hen', heq⟩
      rw [← heq]; exact hbsa en' hen'

theorem fst_mem_bestAssignments_fold (Q : String → Prop) :
    ∀ (idx : List (String × List Candidate)) (bsa : List (String × List Member)),
      (∀ en ∈ bsa, Q en.1) → (∀ e ∈ idx, ∀ c ∈ e.2, Q c.shadingEngine) →
      ∀ en ∈ idx.foldl bestStep bsa, Q en.1 := by
  intro idx
  induction idx with
  | nil => intro bsa hbsa _; exact hbsa
  | cons e idx ih =>
    intro bsa hbsa hidx
    rw [List.foldl_cons]
    refine ih _ ?_ (fun e' he' c hc => hidx e' (by simp [he']) c hc)
    unfold bestStep
    refine fst_mem_foldCands Q _ _ bsa hbsa ?_
    intro c hc
    exact hidx e (by simp) c (keptCandidates_subset e.2 c hc)

/-!
## Claim C1
-/

/-- C1: during reconciliation, for every live path with candidate
assignments the selected winner has the greatest source-member-path depth
(count of the `'|'` delimiter) among the path's candidates; the final
output keeps exactly the candidates whose source member path equals the
winner's, dropping every strictly shallower candidate; and a candidate
kept at one live path always contributes its claim to the output map, so
dropping a group's candidate at one path does not affect its claims on
other live paths. -/
theorem apply_contested_path_policy :
    (∀ cs : List Candidate, cs ≠ [] →
      ∃ w, pythonMax depthKey cs = some w ∧ w ∈ cs ∧
        (∀ c ∈ cs, depthKey c ≤ depthKey w) ∧
        keptCandidates cs = cs.filter (fun c => c.member.path == w.member.path) ∧
        (∀ c ∈ cs, depthKey c < depthKey w → c ∉ keptCandidates cs)) ∧
    (∀ (idx : List (String × List Candidate)) (p : String) (cs : List Candidate)
        (c : Candidate), (p, cs) ∈ idx → c ∈ keptCandidates cs →
      Member.mk p c.member.components ∈ dictLookup (bestAssignments idx) c.shadingEngine) := by
  constructor
  · intro cs hcs
    cases cs with
    | nil => exact absurd rfl hcs
    | cons x xs =>
      obtain ⟨pre, post, heq, _, _⟩ := pyMaxAux_split depthKey xs x
      refine ⟨pyMaxAux depthKey x xs, rfl, ?_, ?_, rfl, ?_⟩
      · rw [heq]; simp
      · exact pyMaxAux_ge depthKey xs x
      · intro c hc hdepth hmem
        have hpath := (List.mem_filter.mp hmem).2
        simp only [beq_iff_eq] at hpath
        have : depthKey c = depthKey (pyMaxAux depthKey x xs) := by
          simp [depthKey, hpath]
        omega
  · intro idx p cs c hmem hkept
    rw [bestAssignments_lookup]
    refine List.mem_filterMap.mpr ⟨(c.shadingEngine, ⟨p, c.member.components⟩), ?_, by simp⟩
    refine List.mem_flatten.mpr ⟨entryPairs (p, cs), List.mem_map.mpr ⟨(p, cs), hmem, rfl⟩, ?_⟩
    exact List.mem_map.mpr ⟨c, hkept, rfl⟩

/-- Witness for `apply_contested_path_policy` at a concrete contested
path with two candidates of different depth. -/
theorem apply_contested_path_policy_witness :
    (([⟨⟨"x|y|a", ["f[0:1]"]⟩, "A"⟩, ⟨⟨"y|a", []⟩, "B"⟩] : List Candidate) ≠ []) ∧
    (∃ w, pythonMax depthKey [⟨⟨"x|y|a", ["f[0:1]"]⟩, "A"⟩, ⟨⟨"y|a", []⟩, "B"⟩] = some w ∧
      w ∈ [⟨⟨"x|y|a", ["f[0:1]"]⟩, "A"⟩, ⟨⟨"y|a", []⟩, "B"⟩] ∧
      (∀ c ∈ ([⟨⟨"x|y|a", ["f[0:1]"]⟩, "A"⟩, ⟨⟨"y|a", []⟩, "B"⟩] : List Candidate),
        depthKey c ≤ depthKey w) ∧
      keptCandidates [⟨⟨"x|y|a", ["f[0:1]"]⟩, "A"⟩, ⟨⟨"y|a", []⟩, "B"⟩] =
        ([⟨⟨"x|y|a", ["f[0:1]"]⟩, "A"⟩, ⟨⟨"y|a", []⟩, "B"⟩] : List Candidate).filter
          (fun c => c.member.path == w.member.path) ∧
      (∀ c ∈ ([⟨⟨"x|y|a", ["f[0:1]"]⟩, "A"⟩, ⟨⟨"y|a", []⟩, "B"⟩] : List Candidate),
        depthKey c < depthKey w →
        c ∉ keptCandidates [⟨⟨"x|y|a", ["f[0:1]"]⟩, "A"⟩, ⟨⟨"y|a", []⟩, "B"⟩])) :=
  ⟨by decide, apply_contested_path_policy.1 _ (by decide)⟩

/-!
## Claim C2
-/

/-- C2 is refuted at this input: two groups with component-level
assignments on the same captured entity both resolve to the live path
`"|q|a"`, and that live path ends up in the member set of both groups of
the final applied map. -/
theorem live_path_single_group_counterexample :
    groupsClaiming
      (apply_material_assignments [] ["|q|a"]
        [("A", ⟨"u1", [⟨"x|a", ["f[0:1]"]⟩]⟩), ("B", ⟨"u2", [⟨"x|a", ["f[2:3]"]⟩]⟩)]
        "|" none none false) "|q|a" = 2 ∧
    ¬ groupsClaiming
      (apply_material_assignments [] ["|q|a"]
        [("A", ⟨"u1", [⟨"x|a", ["f[0:1]"]⟩]⟩), ("B", ⟨"u2", [⟨"x|a", ["f[2:3]"]⟩]⟩)]
        "|" none none false) "|q|a" ≤ 1 :=
  ⟨by decide, by decide⟩

/-- C2 (amended): during reconciliation each live path is resolved to at
most one winning source member path — all candidates kept for one live
path share the same source member path — though the kept candidates may
belong to several groups (component-level claims), so a live path can
appear in more than one group's member set. -/
theorem live_path_single_source_path :
    ∀ (cs : List Candidate) (c1 c2 : Candidate),
      c1 ∈ keptCandidates cs → c2 ∈ keptCandidates cs →
      c1.member.path = c2.member.path := by
  intro cs c1 c2 h1 h2
  unfold keptCandidates at h1 h2
  cases hmax : pythonMax depthKey cs with
  | none => rw [hmax] at h1; simp at h1
  | some b =>
    rw [hmax] at h1 h2
    have e1 := (List.mem_filter.mp h1).2
    have e2 := (List.mem_filter.mp h2).2
    simp only [beq_iff_eq] at e1 e2
    rw [e1, e2]

/-- Witness for `live_path_single_source_path` at the candidates of the
counterexample input. -/
theorem live_path_single_source_path_witness :
    (⟨⟨"x|a", ["f[0:1]"]⟩, "A"⟩ : Candidate) ∈
      keptCandidates [⟨⟨"x|a", ["f[0:1]"]⟩, "A"⟩, ⟨⟨"x|a", ["f[2:3]"]⟩, "B"⟩] ∧
    (⟨⟨"x|a", ["f[2:3]"]⟩, "B"⟩ : Candidate) ∈
      keptCandidates [⟨⟨"x|a", ["f[0:1]"]⟩, "A"⟩, ⟨⟨"x|a", ["f[2:3]"]⟩, "B"⟩] ∧
    (⟨⟨"x|a", ["f[0:1]"]⟩, "A"⟩ : Candidate).member.path =
      (⟨⟨"x|a", ["f[2:3]"]⟩, "B"⟩ : Candidate).member.path :=
  ⟨by decide, by decide,
    live_path_single_source_path
      [⟨⟨"x|a", ["f[0:1]"]⟩, "A"⟩, ⟨⟨"x|a", ["f[2:3]"]⟩, "B"⟩]
      ⟨⟨"x|a", ["f[0:1]"]⟩, "A"⟩ ⟨⟨"x|a", ["f[2:3]"]⟩, "B"⟩
      (by decide) (by decide)⟩

/-!
## Claim C3
-/

/-- C3 is refuted at this input: the two assignments dicts hold the same
group snapshots (they are permutations of each other), both candidate
source paths have equal depth, yet the reconciled outputs differ — the
contested live path goes to whichever group was enumerated first, not to
a lexicographic tie-break. -/
theorem reconcile_order_independence_counterexample :
    List.Perm
      [("A", (⟨"u1", [⟨"x|a", ["f[0:1]"]⟩]⟩ : GroupData)), ("B", ⟨"u2", [⟨"y|a", []⟩]⟩)]
      [("B", (⟨"u2", [⟨"y|a", []⟩]⟩ : GroupData)), ("A", ⟨"u1", [⟨"x|a", ["f[0:1]"]⟩]⟩)] ∧
    apply_material_assignments [] ["|q|a"]
      [("A", ⟨"u1", [⟨"x|a", ["f[0:1]"]⟩]⟩), ("B", ⟨"u2", [⟨"y|a", []⟩]⟩)]
      "|" none none false = [("A", [⟨"|q|a", ["f[0:1]"]⟩])] ∧
    apply_material_assignments [] ["|q|a"]
      [("B", ⟨"u2", [⟨"y|a", []⟩]⟩), ("A", ⟨"u1", [⟨"x|a", ["f[0:1]"]⟩]⟩)]
      "|" none none false = [("B", [⟨"|q|a", []⟩])] ∧
    apply_material_assignments [] ["|q|a"]
      [("A", ⟨"u1", [⟨"x|a", ["f[0:1]"]⟩]⟩), ("B", ⟨"u2", [⟨"y|a", []⟩]⟩)]
      "|" none none false ≠
    apply_material_assignments [] ["|q|a"]
      [("B", ⟨"u2", [⟨"y|a", []⟩]⟩), ("A", ⟨"u1", [⟨"x|a", ["f[0:1]"]⟩]⟩)]
      "|" none none false :=
  ⟨by decide, by decide, by decide, by decide⟩

/-- C3 (amended): reconciliation is a pure function of the
assignments-dict enumeration order — contested-path ties at equal maximal
depth are resolved first-come (the winner is the first candidate of
maximal depth in index order, every earlier candidate being strictly
shallower), not by lexicographic path order, so the result depends on the
order in which candidate assignments were indexed. -/
theorem reconcile_first_come_tie_break :
    ∀ (cs : List Candidate), cs ≠ [] →
      ∃ pre w post, cs = pre ++ w :: post ∧ pythonMax depthKey cs = some w ∧
        (∀ c ∈ pre, depthKey c < depthKey w) ∧
        (∀ c ∈ post, depthKey c ≤ depthKey w) ∧
        keptCandidates cs = cs.filter (fun c => c.member.path == w.member.path) := by
  intro cs hcs
  cases cs with
  | nil => exact absurd rfl hcs
  | cons x xs =>
    obtain ⟨pre, post, heq, hpre, hpost⟩ := pyMaxAux_split depthKey xs x
    exact ⟨pre, pyMaxAux depthKey x xs, post, heq, rfl, hpre, hpost, rfl⟩

/-- Witness for `reconcile_first_come_tie_break` at a concrete two-way
tie. -/
theorem reconcile_first_come_tie_break_witness :
    (([⟨⟨"x|a", ["f[0:1]"]⟩, "A"⟩, ⟨⟨"y|a", []⟩, "B"⟩] : List Candidate) ≠ []) ∧
    (∃ pre w post,
      ([⟨⟨"x|a", ["f[0:1]"]⟩, "A"⟩, ⟨⟨"y|a", []⟩, "B"⟩] : List Candidate) =
        pre ++ w :: post ∧
      pythonMax depthKey [⟨⟨"x|a", ["f[0:1]"]⟩, "A"⟩, ⟨⟨"y|a", []⟩, "B"⟩] = some w ∧
      (∀ c ∈ pre, depthKey c < depthKey w) ∧
      (∀ c ∈ post, depthKey c ≤ depthKey w) ∧
      keptCandidates [⟨⟨"x|a", ["f[0:1]"]⟩, "A"⟩, ⟨⟨"y|a", []⟩, "B"⟩] =
        ([⟨⟨"x|a", ["f[0:1]"]⟩, "A"⟩, ⟨⟨"y|a", []⟩, "B"⟩] : List Candidate).filter
          (fun c => c.member.path == w.member.path)) :=
  ⟨by decide, reconcile_first_come_tie_break _ (by decide)⟩

/-!
## Claim C4
-/

/-- C4: the code contradicts the skip-on-unresolved contract.  At this
input `find_shading_engine` resolves nothing (no live group is named
`mtl1` and no live group carries the uuid `u1` — the live group list is
empty), yet the group is not skipped: the guard of line 414 tests the
always-non-empty dict key instead of the lookup result, so a resolved
assignment is still emitted for the unresolved group. -/
theorem unresolved_group_not_skipped :
    find_shading_engine [] "mtl1" (some "u1") none = none ∧
    apply_material_assignments [] ["|q|a"] [("mtl1", ⟨"u1", [⟨"x|a", []⟩]⟩)]
      "|" none none false = [("mtl1", [⟨"|q|a", []⟩])] :=
  ⟨by decide, by decide⟩

/-!
## Claim C5
-/

theorem lsStarMatches_iff (tail p : String) :
    lsStarMatches tail p = true ↔
      ∃ pre, pre ≠ [] ∧ segsAbs p = pre ++ pySplit '|' tail := by
  unfold lsStarMatches
  simp only [Bool.and_eq_true, decide_eq_true_eq, List.isSuffixOf_iff_suffix]
  constructor
  · rintro ⟨⟨t, ht⟩, hlen⟩
    refine ⟨t, ?_, ht.symm⟩
    intro hnil
    rw [hnil, List.nil_append] at ht
    rw [← ht] at hlen
    omega
  · rintro ⟨pre, hne, heq⟩
    refine ⟨⟨pre, heq.symm⟩, ?_⟩
    rw [heq, List.length_append]
    have : 0 < pre.length := List.length_pos.mpr hne
    omega

/-- C5 is refuted at this input: with root `"|geo"` and pattern
`"a|b"`, strict mode returns the live path `"|geo|x|a|b"`, which has the
extra intermediate segment `x` between the root and the pattern and is
not equal to the root concatenated with the pattern. -/
theorem strict_mode_counterexample :
    find_matching_paths ["|geo|x|a|b"] "a|b" "|geo" none true = ["|geo|x|a|b"] ∧
    ("|geo|x|a|b" : String) ≠ "|geo" ++ "|" ++ "a|b" :=
  ⟨by decide, by decide⟩

/-- C5 (amended): in strict mode `find_matching_paths` returns exactly
the live paths under the root whose trailing segment sequence equals the
whole pattern and which have at least one segment above it — matching is
by trailing suffix, not anchored at the root, so paths with extra
intermediate segments between root and pattern are also returned. -/
theorem strict_mode_suffix_match :
    ∀ (scene : List String) (path root : String) (ns : Option String) (p : String),
      p ∈ find_matching_paths scene path root ns true ↔
        p ∈ scene ∧
        (∃ pre, pre ≠ [] ∧ segsAbs p = pre ++ pySplit '|' (lstripPipe path)) ∧
        (match optTruthy ns with
         | some n => pyStartswith (afterLast '|' p) n
         | none => true) = true ∧
        pyStartswith p (rstripPipe root ++ "|") = true := by
  intro scene path root ns p
  unfold find_matching_paths
  rw [List.mem_filter]
  simp only [if_true, Bool.and_eq_true, lsStarMatches_iff, and_assoc]

/-- Witness for `strict_mode_suffix_match` at the counterexample scene. -/
theorem strict_mode_suffix_match_witness :
    "|geo|x|a|b" ∈ find_matching_paths ["|geo|x|a|b"] "a|b" "|geo" none true :=
  (strict_mode_suffix_match ["|geo|x|a|b"] "a|b" "|geo" none "|geo|x|a|b").mpr
    ⟨by decide, ⟨["geo", "x"], by decide, by decide⟩, by decide, by decide⟩

/-!
## Claim C6
-/

/-- C6 is refuted at this input: the path `"|other|x"` does not start
with the root `"|geo"`, yet `get_relative_paths` does not fail — the
path is returned unchanged. -/
theorem relativize_passthrough_counterexample :
    get_relative_paths ["|other|x"] "|geo" = some ["|other|x"] := by decide

/-- C6 (amended): whenever the root contains the path delimiter,
`get_relative_paths` never fails; an input path that does not start with
the root string is returned unchanged (no `NotUnderRoot` error), and a
path that does start with the root is rewritten to the root's last
segment (the anchor) followed by the remaining suffix. -/
theorem relativize_total_behavior :
    ∀ (paths : List String) (root : String), strContains root '|' = true →
      ∃ out, get_relative_paths paths root = some out ∧
        out.length = paths.length ∧
        ∀ (i : Nat) (hi : i < paths.length) (ho : i < out.length),
          out[i] =
            if pyStartswith paths[i] root = true then
              afterLast '|' (rstripPipe root) ++ "|" ++ lstripPipe (dropPrefixStr paths[i] root)
            else paths[i] := by
  intro paths root h
  refine ⟨paths.map (fun p =>
      if pyStartswith p root then
        afterLast '|' (rstripPipe root) ++ "|" ++ lstripPipe (dropPrefixStr p root)
      else p), ?_, by simp, ?_⟩
  · simp [get_relative_paths, h]
  · intro i hi ho
    simp [List.getElem_map]

/-- Witness for `relativize_total_behavior` at a two-path input, one
under the root and one outside it. -/
theorem relativize_total_behavior_witness :
    strContains "|geo" '|' = true ∧
    (∃ out, get_relative_paths ["|geo|a", "|other"] "|geo" = some out ∧
      out.length = (["|geo|a", "|other"] : List String).length ∧
      ∀ (i : Nat) (hi : i < (["|geo|a", "|other"] : List String).length)
        (ho : i < out.length),
        out[i] =
          if pyStartswith (["|geo|a", "|other"] : List String)[i] "|geo" = true then
            afterLast '|' (rstripPipe "|geo") ++ "|" ++
              lstripPipe (dropPrefixStr (["|geo|a", "|other"] : List String)[i] "|geo")
          else (["|geo|a", "|other"] : List String)[i]) :=
  ⟨by decide, relativize_total_behavior ["|geo|a", "|other"] "|geo" (by decide)⟩

/-!
## Claim C7
-/

/-- C7: `find_shading_engine` resolves a group by the ordered policy: a
unique (optionally namespace-qualified) name match is returned; otherwise,
with a truthy identity token and a unique identity match, that match is
returned — in particular with two live groups sharing the name and a
unique identity match the identity-matched group wins; otherwise the
first name match is preferred over the first identity match; and the
lookup is total (no error is raised), returning the fallback heads or
nothing. -/
theorem group_resolution_policy :
    ∀ (groups : List SceneGroup) (name : String) (uuid ns : Option String),
      (∀ g : String,
        lsNameMatches groups (nameLookup name (optTruthy ns)) = [g] →
        find_shading_engine groups name uuid ns = some g) ∧
      (∀ u g,
        (lsNameMatches groups (nameLookup name (optTruthy ns))).length ≠ 1 →
        optTruthy uuid = some u →
        uuidMatchesOf groups u (optTruthy ns) = [g] →
        find_shading_engine groups name uuid ns = some g) ∧
      ((lsNameMatches groups (nameLookup name (optTruthy ns))).length ≠ 1 →
        (match optTruthy uuid with
         | some u => (uuidMatchesOf groups u (optTruthy ns)).length ≠ 1
         | none => True) →
        lsNameMatches groups (nameLookup name (optTruthy ns)) ≠ [] →
        find_shading_engine groups name uuid ns =
          (lsNameMatches groups (nameLookup name (optTruthy ns))).head?) := by
  intro groups name uuid ns
  refine ⟨?_, ?_, ?_⟩
  · intro g hg
    simp [find_shading_engine, hg]
  · intro u g hlen hu hum
    have hlen' : ((lsNameMatches groups (nameLookup name (optTruthy ns))).length == 1) = false := by
      simpa using hlen
    simp [find_shading_engine, hlen', hu, hum]
  · intro hlen hulen hne
    have hlen' : ((lsNameMatches groups (nameLookup name (optTruthy ns))).length == 1) = false := by
      simpa using hlen
    have hempty : (lsNameMatches groups (nameLookup name (optTruthy ns))).isEmpty = false := by
      simpa [List.isEmpty_iff] using hne
    cases hu : optTruthy uuid with
    | none => simp [find_shading_engine, hlen', hu, hempty]
    | some u =>
      rw [hu] at hulen
      have hulen' : ((uuidMatchesOf groups u (optTruthy ns)).length == 1) = false := by
        simpa using hulen
      simp [find_shading_engine, hlen', hu, hulen', hempty]

/-- Witness for `group_resolution_policy`: scenario C — two live groups
named `mtl1` in different namespaces, identity token unique — the
identity-matched group is returned. -/
theorem group_resolution_policy_witness :
    (lsNameMatches [⟨"a:mtl1", some "id9"⟩, ⟨"b:mtl1", some "id1"⟩]
        (nameLookup "mtl1" (optTruthy none))).length ≠ 1 ∧
    optTruthy (some "id1") = some "id1" ∧
    uuidMatchesOf [⟨"a:mtl1", some "id9"⟩, ⟨"b:mtl1", some "id1"⟩] "id1"
      (optTruthy none) = ["b:mtl1"] ∧
    find_shading_engine [⟨"a:mtl1", some "id9"⟩, ⟨"b:mtl1", some "id1"⟩]
      "mtl1" (some "id1") none = some "b:mtl1" :=
  ⟨by decide, by decide, by decide,
    (group_resolution_policy [⟨"a:mtl1", some "id9"⟩, ⟨"b:mtl1", some "id1"⟩]
      "mtl1" (some "id1") none).2.1 "id1" "b:mtl1" (by decide) (by decide) (by decide)⟩

/-!
## Claim C9
-/

theorem dictLookup_fmEnsureKey (acc : List (String × List String)) (k' k : String) :
    dictLookup (fmEnsureKey acc k') k = dictLookup acc k := by
  induction acc with
  | nil => simp [fmEnsureKey, dictLookup, ite_self]
  | cons e es ih =>
    rw [fmEnsureKey]
    by_cases h : e.1 = k'
    · simp [h]
    · have hb : (e.1 == k') = false := by simp [h]
      simp only [hb, Bool.false_eq_true, if_false]
      by_cases hek : e.1 = k
      · simp [dictLookup, hek]
      · simp [dictLookup, hek, ih]

theorem fmKeys_dictAppend (acc : List (String × List String)) (k v : String) :
    (dictAppend acc k v).map Prod.fst =
      if k ∈ acc.map Prod.fst then acc.map Prod.fst else acc.map Prod.fst ++ [k] := by
  induction acc with
  | nil => simp [dictAppend]
  | cons e es ih =>
    by_cases h : e.1 = k
    · simp [dictAppend, h]
    · by_cases hk : k ∈ es.map Prod.fst
      · simp [dictAppend, h, hk, ih, Ne.symm h]
      · simp [dictAppend, h, hk, ih, Ne.symm h]

theorem fmKeys_fmEnsureKey (acc : List (String × List String)) (k : String) :
    (fmEnsureKey acc k).map Prod.fst =
      if k ∈ acc.map Prod.fst then acc.map Prod.fst else acc.map Prod.fst ++ [k] := by
  induction acc with
  | nil => simp [fmEnsureKey]
  | cons e es ih =>
    by_cases h : e.1 = k
    · simp [fmEnsureKey, h]
    · by_cases hk : k ∈ es.map Prod.fst
      · simp [fmEnsureKey, h, hk, ih, Ne.symm h]
      · simp [fmEnsureKey, h, hk, ih, Ne.symm h]

theorem splitCharGo_no_delim (c : Char) (cs : List Char) (h : c ∉ cs) :
    ∀ cur, splitCharGo c cur cs = [cur.reverse ++ cs] := by
  induction cs with
  | nil => intro cur; simp [splitCharGo]
  | cons x xs ih =>
    intro cur
    have hx : x ≠ c := fun hh => h (by simp [hh])
    have hxs : c ∉ xs := fun hh => h (by simp [hh])
    simp [splitCharGo, hx, ih hxs]

theorem pySplit_no_delim (c : Char) (m : String) (h : strContains m c = false) :
    pySplit c m = [m] := by
  have hmem : c ∉ m.data := by
    simp [strContains] at h
    exact h
  rw [pySplit, splitCharGo_no_delim c m.data hmem []]
  simp

theorem entityOf_dotted (m obj comp : String) (h : pySplit '.' m = [obj, comp]) :
    entityOf m = obj := by
  rw [entityOf, h]
  rfl

theorem entityOf_plain (m : String) (h : strContains m '.' = false) :
    entityOf m = m := by
  rw [entityOf, pySplit_no_delim '.' m h]
  rfl

theorem fmGo_keys : ∀ (ms : List String) (acc acc' : List (String × List String)),
    fmGo acc ms = some acc' →
    acc'.map Prod.fst =
      acc.map Prod.fst ++ firstSeenFrom (acc.map Prod.fst) (ms.map entityOf) := by
  intro ms
  induction ms with
  | nil =>
    intro acc acc' h
    simp [fmGo] at h
    simp [← h, firstSeenFrom]
  | cons m ms ih =>
    intro acc acc' h
    by_cases hd : strContains m '.' = true
    · cases hsp : pySplit '.' m with
      | nil => simp [fmGo, hd, hsp] at h
      | cons a t =>
        cases t with
        | nil => simp [fmGo, hd, hsp] at h
        | cons b t2 =>
          cases t2 with
          | nil =>
            simp only [fmGo, hd, if_true, hsp] at h
            have hent : entityOf m = a := entityOf_dotted m a b hsp
            have hrec := ih (dictAppend acc a b) acc' h
            rw [hrec, fmKeys_dictAppend]
            by_cases hk : a ∈ acc.map Prod.fst
            · simp [hk, hent, firstSeenFrom]
            · simp [hk, hent, firstSeenFrom, List.append_assoc]
          | cons c3 t3 => simp [fmGo, hd, hsp] at h
    · have hd' : strContains m '.' = false := by simpa using hd
      simp only [fmGo, hd', Bool.false_eq_true, if_false] at h
      have hent : entityOf m = m := entityOf_plain m hd'
      have hrec := ih (fmEnsureKey acc m) acc' h
      rw [hrec, fmKeys_fmEnsureKey]
      by_cases hk : m ∈ acc.map Prod.fst
      · simp [hk, hent, firstSeenFrom]
      · simp [hk, hent, firstSeenFrom, List.append_assoc]

theorem fmGo_vals : ∀ (ms : List String) (acc acc' : List (String × List String)),
    fmGo acc ms = some acc' →
    ∀ k, dictLookup acc' k = dictLookup acc k ++ compsFor ms k := by
  intro ms
  induction ms with
  | nil =>
    intro acc acc' h k
    simp [fmGo] at h
    simp [← h, compsFor]
  | cons m ms ih =>
    intro acc acc' h k
    by_cases hd : strContains m '.' = true
    · cases hsp : pySplit '.' m with
      | nil => simp [fmGo, hd, hsp] at h
      | cons a t =>
        cases t with
        | nil => simp [fmGo, hd, hsp] at h
        | cons b t2 =>
          cases t2 with
          | nil =>
            simp only [fmGo, hd, if_true, hsp] at h
            have hrec := ih (dictAppend acc a b) acc' h k
            rw [hrec, dictLookup_dictAppend]
            by_cases hak : k = a
            · simp [compsFor, List.filterMap_cons, hd, hsp, hak, List.append_assoc]
            · simp [compsFor, List.filterMap_cons, hd, hsp, hak, Ne.symm hak]
          | cons c3 t3 => simp [fmGo, hd, hsp] at h
    · have hd' : strContains m '.' = false := by simpa using hd
      simp only [fmGo, hd', Bool.false_eq_true, if_false] at h
      have hrec := ih (fmEnsureKey acc m) acc' h k
      rw [hrec, dictLookup_fmEnsureKey]
      simp [compsFor, List.filterMap_cons, hd']

theorem firstSeenFrom_spec : ∀ (xs seen : List String),
    (firstSeenFrom seen xs).Nodup ∧ ∀ y ∈ firstSeenFrom seen xs, y ∉ seen := by
  intro xs
  induction xs with
  | nil => intro seen; simp [firstSeenFrom]
  | cons x xs ih =>
    intro seen
    by_cases hx : x ∈ seen
    · simpa [firstSeenFrom, hx] using ih seen
    · have h1 := ih (seen ++ [x])
      refine ⟨?_, ?_⟩
      · rw [firstSeenFrom, if_neg hx, List.nodup_cons]
        refine ⟨?_, h1.1⟩
        intro hmem
        exact h1.2 x hmem (by simp)
      · intro y hy
        rw [firstSeenFrom, if_neg hx] at hy
        rcases List.mem_cons.mp hy with hy | hy
        · exact hy ▸ hx
        · intro hcon
          exact h1.2 y hy (by simp [hcon])

/-- C9 is refuted at this input: `format_members` receives for the same
entity `a` both a no-component token and a component token, and the
resulting member records the component selector, not whole-entity
membership. -/
theorem whole_entity_precedence_counterexample :
    format_members ["a", "a.f[1:2]"] = some [⟨"a", ["f[1:2]"]⟩] ∧
    (["f[1:2]"] : List String) ≠ [] :=
  ⟨by decide, by decide⟩

/-- C9 (amended): `format_members` emits one member per distinct entity
path in first-seen order, and an entity's components are exactly the
component selectors of its dotted tokens, in token order — a
no-component token only makes the entity appear and never overrides
component selectors, so whole-entity membership results only when no
dotted token mentions the entity. -/
theorem member_grouping_policy :
    ∀ (ms : List String) (out : List Member), format_members ms = some out →
      out.map Member.path = firstSeenFrom [] (ms.map entityOf) ∧
      ∀ e ∈ out, e.components = compsFor ms e.path := by
  intro ms out h
  unfold format_members at h
  cases hgo : fmGo [] ms with
  | none => rw [hgo] at h; simp at h
  | some acc' =>
    rw [hgo] at h
    simp at h
    have hkeys := fmGo_keys ms [] acc' hgo
    simp only [List.map_nil, List.nil_append] at hkeys
    have hvals := fmGo_vals ms [] acc' hgo
    constructor
    · rw [← h, List.map_map]
      exact hkeys
    · intro e he
      rw [← h] at he
      rcases List.mem_map.mp he with ⟨pr, hpr, hpre⟩
      have hnd : (acc'.map Prod.fst).Nodup := by
        rw [hkeys]
        exact (firstSeenFrom_spec _ []).1
      have hlook := dictLookup_of_mem_nodup acc' pr hpr hnd
      have hval := hvals pr.1
      simp only [dictLookup, List.nil_append] at hval
      rw [← hpre]
      show pr.2 = compsFor ms pr.1
      rw [← hlook]
      exact hval

/-- Witness for `member_grouping_policy` at a three-token input mixing a
plain token and dotted tokens. -/
theorem member_grouping_policy_witness :
    format_members ["b", "a.f[1:2]", "a.f[4:5]"] =
      some [⟨"b", []⟩, ⟨"a", ["f[1:2]", "f[4:5]"]⟩] ∧
    ([⟨"b", []⟩, ⟨"a", ["f[1:2]", "f[4:5]"]⟩] : List Member).map Member.path =
      firstSeenFrom [] ((["b", "a.f[1:2]", "a.f[4:5]"] : List String).map entityOf) :=
  ⟨by decide,
    (member_grouping_policy ["b", "a.f[1:2]", "a.f[4:5]"]
      [⟨"b", []⟩, ⟨"a", ["f[1:2]", "f[4:5]"]⟩] (by decide)).1⟩

/-!
## Claim C10
-/

/-- C10: the group ultimately passed to `assign_shading_engine` is always
the snapshot's own group-name key — every group key of the emitted
assignment calls is a key of the input assignments dict — and the result
of `find_shading_engine` (`matching_shading_engine`) is never used: the
output is unchanged under arbitrary changes to the live group list and
the material namespace, which only affect that lookup. -/
theorem assignment_target_is_snapshot_key :
    (∀ (engines engines' : List SceneGroup) (scene : List String)
        (assignments : List (String × GroupData)) (root : String)
        (mns matns matns' : Option String) (strict : Bool),
      apply_material_assignments engines scene assignments root mns matns strict =
        apply_material_assignments engines' scene assignments root mns matns' strict) ∧
    (∀ (engines : List SceneGroup) (scene : List String)
        (assignments : List (String × GroupData)) (root : String)
        (mns matns : Option String) (strict : Bool),
      ∀ e ∈ applyCalls engines scene assignments root mns matns strict,
        e.1 ∈ assignments.map Prod.fst) := by
  constructor
  · intro engines engines' scene assignments root mns matns matns' strict
    rfl
  · intro engines scene assignments root mns matns strict e he
    rcases List.mem_map.mp he with ⟨e', he', heq⟩
    rw [← heq]
    exact fst_mem_bestAssignments_fold (· ∈ assignments.map Prod.fst)
      (buildIndex engines scene assignments root mns matns strict) [] (by simp)
      (fun en hen c hc =>
        val_mem_buildIndex engines scene assignments root mns matns strict en hen c hc)
      e' he'

/-!
## Claim C8
-/

theorem takeWhile_append_stop (p : Char → Bool) (l1 : List Char) (x : Char) (l2 : List Char)
    (h1 : ∀ c ∈ l1, p c = true) (hx : p x = false) :
    (l1 ++ x :: l2).takeWhile p = l1 := by
  induction l1 with
  | nil => simp [List.takeWhile_cons, hx]
  | cons a l1 ih =>
    have ha := h1 a (by simp)
    simp [List.takeWhile_cons, ha]
    exact ih (fun c hc => h1 c (by simp [hc]))

theorem dropWhile_append_stop (p : Char → Bool) (l1 : List Char) (x : Char) (l2 : List Char)
    (h1 : ∀ c ∈ l1, p c = true) (hx : p x = false) :
    (l1 ++ x :: l2).dropWhile p = x :: l2 := by
  induction l1 with
  | nil => simp [List.dropWhile_cons, hx]
  | cons a l1 ih =>
    have ha := h1 a (by simp)
    simp [List.dropWhile_cons, ha]
    exact ih (fun c hc => h1 c (by simp [hc]))

theorem isPrefixOf_append_self (l t : List Char) : l.isPrefixOf (l ++ t) = true := by
  induction l with
  | nil => simp [List.isPrefixOf]
  | cons a l ih => simp [List.isPrefixOf, ih]

theorem removeAllAux_nil (pat : List Char) (f : Nat) : removeAllAux pat f [] = [] := by
  cases f <;> rfl

theorem removeAllAux_suffix_pattern (pr : List Char) (l : List Char) :
    ∀ fuel : Nat, '.' ∉ l → (l ++ '.' :: pr).length ≤ fuel →
      removeAllAux ('.' :: pr) fuel (l ++ '.' :: pr) = l := by
  induction l with
  | nil =>
    intro fuel hdot hfuel
    cases fuel with
    | zero => simp at hfuel
    | succ f =>
      rw [List.nil_append]
      have hpref : ('.' :: pr).isPrefixOf ('.' :: pr) = true := by
        simp [List.isPrefixOf]
      simp [removeAllAux, hpref, List.drop_length, removeAllAux_nil]
  | cons c l ih =>
    intro fuel hdot hfuel
    have hc : c ≠ '.' := fun h => hdot (by simp [h])
    have hl : '.' ∉ l := fun h => hdot (by simp [h])
    cases fuel with
    | zero => simp at hfuel
    | succ f =>
      have hpref : ('.' :: pr).isPrefixOf (c :: (l ++ '.' :: pr)) = false := by
        simp [List.isPrefixOf, Ne.symm hc]
      have hfuel' : (l ++ '.' :: pr).length ≤ f := by
        simp [List.length_cons] at hfuel ⊢
        omega
      rw [List.cons_append]
      simp [removeAllAux, hpref]
      exact ih f hl hfuel'

theorem parseFullFaceRange_suffix (e : String) (ds : List Char) (hne : ds ≠ [])
    (hdig : ∀ c ∈ ds, c.isDigit = true) :
    parseFullFaceRange (e ++ ".f[0:" ++ String.mk ds ++ "]") =
      some (('.' :: 'f' :: '[' :: '0' :: ':' :: ds) ++ [']'], digitsToNat ds) := by
  have hdata : (e ++ ".f[0:" ++ String.mk ds ++ "]").data
      = (e.data ++ ['.', 'f', '[', '0', ':'] ++ ds) ++ [']'] := by
    show e.data ++ ['.', 'f', '[', '0', ':'] ++ ds ++ [']']
      = (e.data ++ ['.', 'f', '[', '0', ':'] ++ ds) ++ [']']
    simp [List.append_assoc]
  have hrev : (e ++ ".f[0:" ++ String.mk ds ++ "]").data.reverse
      = ']' :: (ds.reverse ++ (':' :: '0' :: '[' :: 'f' :: '.' :: e.data.reverse)) := by
    rw [hdata]
    simp [List.reverse_append]
  have htw : (ds.reverse ++ (':' :: '0' :: '[' :: 'f' :: '.' :: e.data.reverse)).takeWhile
      Char.isDigit = ds.reverse :=
    takeWhile_append_stop _ _ _ _ (fun c hc => hdig c (List.mem_reverse.mp hc)) (by decide)
  have hdw : (ds.reverse ++ (':' :: '0' :: '[' :: 'f' :: '.' :: e.data.reverse)).dropWhile
      Char.isDigit = ':' :: '0' :: '[' :: 'f' :: '.' :: e.data.reverse :=
    dropWhile_append_stop _ _ _ _ (fun c hc => hdig c (List.mem_reverse.mp hc)) (by decide)
  have hpre : ([':', '0', '[', 'f', '.'] : List Char).isPrefixOf
      (':' :: '0' :: '[' :: 'f' :: '.' :: e.data.reverse) = true := by
    simp [List.isPrefixOf]
  have hemp : (ds.reverse).isEmpty = false := by
    cases hd : ds.reverse with
    | nil => exact absurd (by simpa using congrArg List.reverse hd) hne
    | cons a t => rfl
  unfold parseFullFaceRange
  rw [hrev]
  simp [htw, hdw, hpre, hemp]

/-- C8 is refuted on the capture path: the member-sanitization pipeline
of `collect_material_assignments` never consults the face count and keeps
a full-range selector — the captured member `|geo|a.f[0:9]` is stored
with components `["f[0:9]"]`, not as a whole-entity member. -/
theorem capture_keeps_full_range_counterexample :
    sanitize_members ["|geo|a.f[0:9]"] ["|geo|a"] "|geo" =
      some [⟨"geo|a", ["f[0:9]"]⟩] ∧
    (["f[0:9]"] : List String) ≠ [] :=
  ⟨by decide, by decide⟩

/-- C8 (amended): the full-range collapse is implemented by
`filter_bad_face_assignments` (used by the `ShadingGroupsSet.gather`
capture path, not by `collect_material_assignments`): a token whose face
range `f[0:k]` covers exactly the entity's `k+1` faces is shortened to
the whole entity, and a token covering fewer or more faces is kept
unchanged; `collect_material_assignments` stores captured members
without this collapse. -/
theorem full_range_collapse :
    ∀ (faces : String → Nat) (e : String) (ds : List Char), ds ≠ [] →
      (∀ c ∈ ds, c.isDigit = true) → '.' ∉ e.data →
      filter_bad_face_assignments faces [e ++ ".f[0:" ++ String.mk ds ++ "]"] =
        [if digitsToNat ds + 1 == faces e then e
         else e ++ ".f[0:" ++ String.mk ds ++ "]"] := by
  intro faces e ds hne hdig hdot
  have hshort : pyRemoveAll (e ++ ".f[0:" ++ String.mk ds ++ "]")
      ('.' :: ('f' :: '[' :: '0' :: ':' :: (ds ++ [']']))) = e := by
    unfold pyRemoveAll
    have hdata : (e ++ ".f[0:" ++ String.mk ds ++ "]").data
        = e.data ++ ('.' :: ('f' :: '[' :: '0' :: ':' :: (ds ++ [']']))) := by
      show e.data ++ ['.', 'f', '[', '0', ':'] ++ ds ++ [']']
        = e.data ++ ('.' :: ('f' :: '[' :: '0' :: ':' :: (ds ++ [']'])))
      simp [List.append_assoc]
    rw [hdata,
      removeAllAux_suffix_pattern _ e.data _ hdot (Nat.le_refl _)]
  simp [filter_bad_face_assignments, parseFullFaceRange_suffix e ds hne hdig, hshort]

/-- Witness for `full_range_collapse`: a 10-face entity with selector
`f[0:9]` collapses to the whole entity. -/
theorem full_range_collapse_witness :
    (['9'] ≠ ([] : List Char)) ∧ (∀ c ∈ ['9'], c.isDigit = true) ∧
    ('.' ∉ ("node" : String).data) ∧
    filter_bad_face_assignments (fun _ => 10) ["node" ++ ".f[0:" ++ String.mk ['9'] ++ "]"] =
      [if digitsToNat ['9'] + 1 == (fun (_ : String) => 10) "node" then "node"
       else "node" ++ ".f[0:" ++ String.mk ['9'] ++ "]"] :=
  ⟨by decide, by decide, by decide,
    full_range_collapse (fun _ => 10) "node" ['9'] (by decide) (by decide) (by decide)⟩

/-- Witness for `assignment_target_is_snapshot_key` at the concrete
input of the C4 evaluation, with two different live group lists. -/
theorem assignment_target_is_snapshot_key_witness :
    apply_material_assignments [] ["|q|a"] [("mtl1", ⟨"u1", [⟨"x|a", []⟩]⟩)]
      "|" none none false =
      apply_material_assignments [⟨"mtl1", some "u1"⟩] ["|q|a"]
        [("mtl1", ⟨"u1", [⟨"x|a", []⟩]⟩)] "|" none (some "ns:") false ∧
    (("mtl1", ["|q|a"]) ∈ applyCalls [] ["|q|a"] [("mtl1", ⟨"u1", [⟨"x|a", []⟩]⟩)]
      "|" none none false) ∧
    ("mtl1", ["|q|a"]).1 ∈
      ([("mtl1", (⟨"u1", [⟨"x|a", []⟩]⟩ : GroupData))].map Prod.fst) :=
  ⟨assignment_target_is_snapshot_key.1 [] [⟨"mtl1", some "u1"⟩] ["|q|a"]
      [("mtl1", ⟨"u1", [⟨"x|a", []⟩]⟩)] "|" none none (some "ns:") false,
    by decide,
    assignment_target_is_snapshot_key.2 [] ["|q|a"] [("mtl1", ⟨"u1", [⟨"x|a", []⟩]⟩)]
      "|" none none false ("mtl1", ["|q|a"]) (by decide)⟩

end Shadeset
